import Mathlib

/-!
# Verification of the subtitle sampling-and-deduplication pipeline

A shallow embedding of the core of `src/extract_subs.py`: the LCS-based
similarity scorer `_lcs_ratio`, the streaming deduplicator `deduplicate`,
the subtitle crop geometry of `crop_subtitle_region`, the per-frame OCR
filtering of `ocr_frames`, and the orchestration of `main` after frame
extraction.  Python floats are modelled as exact rationals (ℚ), Python
strings as Lean `String` (a list of Unicode code points, matching Python
`str` indexing), and Python `int()` truncation as `pyInt`.
-/

open List

/-- One inner-loop pass of the two-row LCS dynamic program in `_lcs_ratio`
(src/extract_subs.py, lines 160–167).  `curRow c bs diag prev left` produces
the entries `curr_row[j], curr_row[j+1], …` given the row character
`c = a[i-1]`, the remaining characters `bs = b[j-1:]`, the value
`diag = prev_row[j-1]`, the remaining previous-row values `prev = prev_row[j:]`,
and the value `left = curr_row[j-1]`. -/
def curRow (c : Char) : List Char → ℕ → List ℕ → ℕ → List ℕ
  | [], _, _, _ => []
  | _ :: _, _, [], _ => []
  | bj :: bs, diag, pj :: ps, left =>
      let v := if c = bj then diag + 1 else max pj left
      v :: curRow c bs pj ps v

/-- The body of the outer loop of `_lcs_ratio` (src/extract_subs.py,
lines 160–167): from `prev_row` and the character `c = a[i-1]`, build
`curr_row` (index 0 stays `0`, the rest comes from `curRow`). -/
def nextRow (b : List Char) (prev : List ℕ) (c : Char) : List ℕ :=
  match prev with
  | [] => []
  | p0 :: ps => 0 :: curRow c b p0 ps 0

/-- The full dynamic program of `_lcs_ratio` (src/extract_subs.py,
lines 158–168): starting from `prev_row = [0] * (n + 1)`, fold one `nextRow`
pass per character of `a`, and read off `prev_row[n]`, the last entry of the
final row. -/
def lcsDP (a b : List Char) : ℕ :=
  (a.foldl (nextRow b) (List.replicate (b.length + 1) 0)).getLastD 0

/-- `_lcs_ratio(a, b)` (src/extract_subs.py, lines 151–168): the LCS
similarity of two strings.  Both empty ⇒ `1.0`; exactly one empty ⇒ `0.0`;
otherwise `(2 * prev_row[n]) / (m + n)`, with the float result modelled
as an exact rational. -/
def lcsRatio (a b : String) : ℚ :=
  if a.length = 0 ∧ b.length = 0 then 1
  else if a.length = 0 ∨ b.length = 0 then 0
  else (2 * (lcsDP a.data b.data : ℚ)) / ((a.length : ℚ) + (b.length : ℚ))

/-- `deduplicate(lines, similarity_threshold)` (src/extract_subs.py,
lines 171–180): start from `deduped = [lines[0]]` and, for each later line,
append it exactly when `_lcs_ratio(line, deduped[-1]) < similarity_threshold`.
`getLastD _ ""` reads `deduped[-1]`; the accumulator is never empty, so the
default is never consulted. -/
def deduplicate (lines : List String) (t : ℚ) : List String :=
  match lines with
  | [] => []
  | x :: rest =>
      rest.foldl
        (fun deduped line =>
          if lcsRatio line (deduped.getLastD "") < t then deduped ++ [line]
          else deduped)
        [x]

/-- The deduplication policy in the spec's words: carry a current
representative, emit a line exactly when its similarity to the representative
is strictly below the threshold (the emitted line becoming the new
representative), and otherwise discard it leaving the representative
unchanged.  `deduplicate` is proved to refine this (claim C1). -/
def dedupeFrom (rep : String) (t : ℚ) : List String → List String
  | [] => []
  | l :: ls =>
      if lcsRatio l rep < t then l :: dedupeFrom l t ls
      else dedupeFrom rep t ls

/-- Python `int()` applied to a rational value: truncation toward zero. -/
def pyInt (q : ℚ) : ℤ := if 0 ≤ q then ⌊q⌋ else ⌈q⌉

/-- The top edge of the crop box in `crop_subtitle_region`
(src/extract_subs.py, line 121): `top = int(h * (1 - crop_ratio))`. -/
def cropTop (h : ℕ) (r : ℚ) : ℤ := pyInt ((h : ℚ) * (1 - r))

/-- The crop box `(0, top, w, h)` passed to `img.crop` in
`crop_subtitle_region` (src/extract_subs.py, line 122): full width, bottom
part of the frame from `top` down to `h`. -/
def cropBox (w h : ℕ) (r : ℚ) : ℤ × ℤ × ℤ × ℤ :=
  (0, cropTop h r, (w : ℤ), (h : ℤ))

/-- The pixel height of the cropped region: `h - top`. -/
def cropHeight (h : ℕ) (r : ℚ) : ℤ := (h : ℤ) - cropTop h r

/-- Python `str.strip()` modelled on the code-point list: drop whitespace
from both ends. -/
def pyStrip (s : String) : String :=
  ⟨((s.data.dropWhile Char.isWhitespace).reverse.dropWhile
      Char.isWhitespace).reverse⟩

/-- `ocr_frames(frames, crop_ratio)` (src/extract_subs.py, lines 125–148)
with the OCR engine as an oracle: `engine f` is the list of text fragments
the engine detects on (the cropped region of) frame `f`, in engine order;
the empty list models `not result or not result[0]`.  A frame's fragments
are space-joined; the stripped text is appended to `all_lines` exactly when
it is non-empty. -/
def ocrFrames {α : Type} (engine : α → List String) (frames : List α) :
    List String :=
  frames.foldl
    (fun all_lines f =>
      let frags := engine f
      if frags = [] then all_lines
      else
        let frame_text := String.intercalate " " frags
        if pyStrip frame_text = "" then all_lines
        else all_lines ++ [pyStrip frame_text])
    []

/-- Steps 2–5 of `main` (src/extract_subs.py, lines 202–218) after frame
extraction: if no frames were produced, exit with status 1 (`sys.exit(1)`)
before OCR, deduplication or persistence run; otherwise OCR the frames,
deduplicate with the default threshold `0.8`, and persist the
newline-joined transcript. -/
def runPipeline {α : Type} (frames : List α) (engine : α → List String) :
    Except ℕ String :=
  match frames with
  | [] => Except.error 1
  | _ :: _ =>
      let lines := ocrFrames engine frames
      let deduped := deduplicate lines (4 / 5)
      Except.ok (String.intercalate "\n" deduped)

/-- The reference LCS length, recursing on the heads of the two lists. -/
def lcsLen : List Char → List Char → ℕ
  | [], _ => 0
  | _ :: _, [] => 0
  | x :: xs, y :: ys =>
      if x = y then lcsLen xs ys + 1
      else max (lcsLen (x :: xs) ys) (lcsLen xs (y :: ys))
termination_by a b => a.length + b.length

/-- `l` is a longest common subsequence of `a` and `b`. -/
def IsLCS (a b l : List Char) : Prop :=
  l <+ a ∧ l <+ b ∧ ∀ l', l' <+ a → l' <+ b → l'.length ≤ l.length

/-- The tail of the DP row for the `a`-prefix `ap` against all prefixes of
`b` extending `pre`: entry `j` (from 0) is `lcsLen ap (pre ++ take (j+1) bs)`. -/
def rowFor (ap : List Char) : List Char → List Char → List ℕ
  | _, [] => []
  | pre, bj :: bs => lcsLen ap (pre ++ [bj]) :: rowFor ap (pre ++ [bj]) bs

theorem lcsLen_nil_right (a : List Char) : lcsLen a [] = 0 := by
  cases a <;> simp [lcsLen]

theorem lcsLen_nil_left (b : List Char) : lcsLen [] b = 0 := by
  simp [lcsLen]

/-- Every common subsequence is at most as long as `lcsLen`. -/
theorem length_le_lcsLen :
    ∀ (a b l : List Char), l <+ a → l <+ b → l.length ≤ lcsLen a b
  | _, _, [], _, _ => Nat.zero_le _
  | [], _, _ :: _, h1, _ => absurd h1 (by simp)
  | _ :: _, [], _ :: _, _, h2 => absurd h2 (by simp)
  | x :: xs, y :: ys, z :: l, h1, h2 => by
      rw [lcsLen]
      by_cases hxy : x = y
      · subst hxy
        rw [if_pos rfl]
        cases h1 with
        | cons _ h1' =>
          cases h2 with
          | cons _ h2' =>
            exact le_trans (length_le_lcsLen xs ys (z :: l) h1' h2')
              (Nat.le_succ _)
          | cons₂ _ h2' =>
            have hl1 : l <+ xs := (List.sublist_cons_self x l).trans h1'
            simpa using Nat.succ_le_succ (length_le_lcsLen xs ys l hl1 h2')
        | cons₂ _ h1' =>
          cases h2 with
          | cons _ h2' =>
            have hl2 : l <+ ys := (List.sublist_cons_self x l).trans h2'
            simpa using Nat.succ_le_succ (length_le_lcsLen xs ys l h1' hl2)
          | cons₂ _ h2' =>
            simpa using Nat.succ_le_succ (length_le_lcsLen xs ys l h1' h2')
      · rw [if_neg hxy]
        cases h1 with
        | cons _ h1' =>
          exact le_trans (length_le_lcsLen xs (y :: ys) (z :: l) h1' h2)
            (Nat.le_max_right _ _)
        | cons₂ _ h1' =>
          cases h2 with
          | cons _ h2' =>
            exact le_trans
              (length_le_lcsLen (x :: xs) ys (x :: l)
                (List.cons_sublist_cons.mpr h1') h2')
              (Nat.le_max_left _ _)
          | cons₂ _ h2' => exact absurd rfl hxy
termination_by a b _ => a.length + b.length

/-- Some common subsequence attains `lcsLen`. -/
theorem exists_lcsLen :
    ∀ (a b : List Char), ∃ l, l <+ a ∧ l <+ b ∧ l.length = lcsLen a b
  | [], b =>
      ⟨[], List.nil_sublist _, List.nil_sublist _, by simp [lcsLen_nil_left]⟩
  | _ :: _, [] =>
      ⟨[], List.nil_sublist _, List.nil_sublist _, by simp [lcsLen_nil_right]⟩
  | x :: xs, y :: ys => by
      rw [lcsLen]
      by_cases hxy : x = y
      · subst hxy
        rw [if_pos rfl]
        obtain ⟨l, ha, hb, hlen⟩ := exists_lcsLen xs ys
        exact ⟨x :: l, List.cons_sublist_cons.mpr ha,
          List.cons_sublist_cons.mpr hb, by simp [hlen]⟩
      · rw [if_neg hxy]
        rcases Nat.le_total (lcsLen (x :: xs) ys) (lcsLen xs (y :: ys)) with h | h
        · obtain ⟨l, ha, hb, hlen⟩ := exists_lcsLen xs (y :: ys)
          exact ⟨l, ha.cons x, hb, by rw [hlen, Nat.max_eq_right h]⟩
        · obtain ⟨l, ha, hb, hlen⟩ := exists_lcsLen (x :: xs) ys
          exact ⟨l, ha, hb.cons y, by rw [hlen, Nat.max_eq_left h]⟩
termination_by a b => a.length + b.length

theorem lcsLen_le_left (a b : List Char) : lcsLen a b ≤ a.length := by
  obtain ⟨l, ha, _, hlen⟩ := exists_lcsLen a b
  exact hlen ▸ ha.length_le

theorem lcsLen_le_right (a b : List Char) : lcsLen a b ≤ b.length := by
  obtain ⟨l, _, hb, hlen⟩ := exists_lcsLen a b
  exact hlen ▸ hb.length_le

theorem lcsLen_comm (a b : List Char) : lcsLen a b = lcsLen b a := by
  apply Nat.le_antisymm
  · obtain ⟨l, ha, hb, hlen⟩ := exists_lcsLen a b
    exact hlen ▸ length_le_lcsLen b a l hb ha
  · obtain ⟨l, ha, hb, hlen⟩ := exists_lcsLen b a
    exact hlen ▸ length_le_lcsLen a b l hb ha

theorem lcsLen_self (a : List Char) : lcsLen a a = a.length := by
  have h := length_le_lcsLen a a a (List.Sublist.refl a) (List.Sublist.refl a)
  exact Nat.le_antisymm (lcsLen_le_left a a) h

theorem lcsLen_reverse (a b : List Char) :
    lcsLen a.reverse b.reverse = lcsLen a b := by
  apply Nat.le_antisymm
  · obtain ⟨l, ha, hb, hlen⟩ := exists_lcsLen a.reverse b.reverse
    have ha' : l.reverse <+ a := by
      apply List.reverse_sublist.mp
      simpa using ha
    have hb' : l.reverse <+ b := by
      apply List.reverse_sublist.mp
      simpa using hb
    calc lcsLen a.reverse b.reverse = l.reverse.length := by simp [hlen]
      _ ≤ lcsLen a b := length_le_lcsLen a b l.reverse ha' hb'
  · obtain ⟨l, ha, hb, hlen⟩ := exists_lcsLen a b
    have ha' : l.reverse <+ a.reverse := List.reverse_sublist.mpr ha
    have hb' : l.reverse <+ b.reverse := List.reverse_sublist.mpr hb
    calc lcsLen a b = l.reverse.length := by simp [hlen]
      _ ≤ lcsLen a.reverse b.reverse :=
        length_le_lcsLen a.reverse b.reverse l.reverse ha' hb'

/-- Recurrence for `lcsLen` on the last characters, obtained from the head
recurrence by reversing both lists. -/
theorem lcsLen_snoc (as bs : List Char) (x y : Char) :
    lcsLen (as ++ [x]) (bs ++ [y]) =
      if x = y then lcsLen as bs + 1
      else max (lcsLen (as ++ [x]) bs) (lcsLen as (bs ++ [y])) := by
  have h1 : lcsLen (as ++ [x]) (bs ++ [y])
      = lcsLen (x :: as.reverse) (y :: bs.reverse) := by
    rw [← lcsLen_reverse (as ++ [x]) (bs ++ [y])]
    simp
  rw [h1, lcsLen]
  by_cases hxy : x = y
  · rw [if_pos hxy, if_pos hxy, lcsLen_reverse]
  · rw [if_neg hxy, if_neg hxy]
    have h2 : lcsLen (x :: as.reverse) bs.reverse = lcsLen (as ++ [x]) bs := by
      rw [← lcsLen_reverse (as ++ [x]) bs]
      simp
    have h3 : lcsLen as.reverse (y :: bs.reverse) = lcsLen as (bs ++ [y]) := by
      rw [← lcsLen_reverse as (bs ++ [y])]
      simp
    rw [h2, h3]

/-- `curRow` turns the row for the `a`-prefix `ap` into the row for
`ap ++ [c]`. -/
theorem curRow_spec (ap : List Char) (c : Char) :
    ∀ (bs pre : List Char),
      curRow c bs (lcsLen ap pre) (rowFor ap pre bs) (lcsLen (ap ++ [c]) pre)
        = rowFor (ap ++ [c]) pre bs
  | [], _ => rfl
  | bj :: bs, pre => by
      have hv : (if c = bj then lcsLen ap pre + 1
          else max (lcsLen ap (pre ++ [bj])) (lcsLen (ap ++ [c]) pre))
          = lcsLen (ap ++ [c]) (pre ++ [bj]) := by
        rw [lcsLen_snoc]
        by_cases h : c = bj
        · simp [h]
        · simp [h, Nat.max_comm]
      simp only [rowFor, curRow, hv]
      rw [curRow_spec ap c bs (pre ++ [bj])]

theorem rowFor_nil_left : ∀ (bs pre : List Char),
    rowFor [] pre bs = List.replicate bs.length 0
  | [], _ => rfl
  | bj :: bs, pre => by
      simp only [rowFor, List.length_cons, List.replicate_succ]
      rw [lcsLen_nil_left, rowFor_nil_left bs (pre ++ [bj])]

/-- Folding `nextRow` over `rest` advances the row from the `a`-prefix `ap`
to `ap ++ rest`. -/
theorem foldl_rows (b : List Char) :
    ∀ (rest ap : List Char),
      rest.foldl (nextRow b) (0 :: rowFor ap [] b)
        = 0 :: rowFor (ap ++ rest) [] b
  | [], ap => by simp
  | c :: rest, ap => by
      rw [List.foldl_cons]
      have hstep : nextRow b (0 :: rowFor ap [] b) c
          = 0 :: rowFor (ap ++ [c]) [] b := by
        have h := curRow_spec ap c b []
        simp only [lcsLen_nil_right, List.append_nil] at h
        simp only [nextRow, h]
      rw [hstep, foldl_rows b rest (ap ++ [c])]
      simp

theorem rowFor_getLastD (ap : List Char) :
    ∀ (bs pre : List Char) (d : ℕ), bs ≠ [] →
      (rowFor ap pre bs).getLastD d = lcsLen ap (pre ++ bs)
  | [], _, _, h => absurd rfl h
  | [bj], pre, d, _ => by simp [rowFor]
  | bj :: bj' :: bs, pre, d, _ => by
      rw [rowFor, List.getLastD_cons,
        rowFor_getLastD ap (bj' :: bs) (pre ++ [bj]) (lcsLen ap (pre ++ [bj]))
          (by simp)]
      simp

/-- The dynamic program of `_lcs_ratio` computes the reference LCS length. -/
theorem lcsDP_eq_lcsLen (a b : List Char) : lcsDP a b = lcsLen a b := by
  unfold lcsDP
  have hrep : List.replicate (b.length + 1) (0 : ℕ) = 0 :: rowFor [] [] b := by
    rw [List.replicate_succ, rowFor_nil_left b []]
  rw [hrep, foldl_rows b a [], List.nil_append]
  cases hb : b with
  | nil => simp [rowFor, lcsLen_nil_right]
  | cons y ys =>
      rw [List.getLastD_cons, rowFor_getLastD a (y :: ys) [] 0 (by simp)]
      simp

theorem exists_isLCS (a b : List Char) : ∃ l, IsLCS a b l := by
  obtain ⟨l, ha, hb, hlen⟩ := exists_lcsLen a b
  exact ⟨l, ha, hb, fun l' h1 h2 => hlen ▸ length_le_lcsLen a b l' h1 h2⟩

theorem isLCS_length {a b l : List Char} (h : IsLCS a b l) :
    l.length = lcsLen a b := by
  obtain ⟨ha, hb, hmax⟩ := h
  obtain ⟨l₀, ha₀, hb₀, hlen₀⟩ := exists_lcsLen a b
  exact Nat.le_antisymm (length_le_lcsLen a b l ha hb) (hlen₀ ▸ hmax l₀ ha₀ hb₀)

theorem string_length_data (s : String) : s.length = s.data.length := rfl

/-- The value `_lcs_ratio` returns when neither string is empty. -/
theorem lcsRatio_eq_of_ne (a b : String) (ha : a.length ≠ 0)
    (hb : b.length ≠ 0) :
    lcsRatio a b
      = 2 * (lcsLen a.data b.data : ℚ) / ((a.length : ℚ) + (b.length : ℚ)) := by
  unfold lcsRatio
  rw [if_neg (by simp [ha]), if_neg (by simp [ha, hb]), lcsDP_eq_lcsLen]

theorem lcsRatio_nonneg (a b : String) : 0 ≤ lcsRatio a b := by
  unfold lcsRatio
  by_cases h1 : a.length = 0 ∧ b.length = 0
  · rw [if_pos h1]
    norm_num
  · rw [if_neg h1]
    by_cases h2 : a.length = 0 ∨ b.length = 0
    · rw [if_pos h2]
    · rw [if_neg h2]
      push_neg at h2
      have ha' : 0 < (a.length : ℚ) := by
        exact_mod_cast Nat.pos_of_ne_zero h2.1
      have hb' : 0 < (b.length : ℚ) := by
        exact_mod_cast Nat.pos_of_ne_zero h2.2
      apply div_nonneg
      · positivity
      · linarith

theorem lcsRatio_le_one (a b : String) : lcsRatio a b ≤ 1 := by
  by_cases h1 : a.length = 0 ∧ b.length = 0
  · unfold lcsRatio
    rw [if_pos h1]
  · by_cases h2 : a.length = 0 ∨ b.length = 0
    · unfold lcsRatio
      rw [if_neg h1, if_pos h2]
      norm_num
    · push_neg at h2
      rw [lcsRatio_eq_of_ne a b h2.1 h2.2]
      have ha' : 0 < (a.length : ℚ) := by
        exact_mod_cast Nat.pos_of_ne_zero h2.1
      have hb' : 0 < (b.length : ℚ) := by
        exact_mod_cast Nat.pos_of_ne_zero h2.2
      rw [div_le_one (by linarith)]
      have hL1 : lcsLen a.data b.data ≤ a.length := lcsLen_le_left a.data b.data
      have hL2 : lcsLen a.data b.data ≤ b.length := lcsLen_le_right a.data b.data
      have hc1 : (lcsLen a.data b.data : ℚ) ≤ (a.length : ℚ) := by
        exact_mod_cast hL1
      have hc2 : (lcsLen a.data b.data : ℚ) ≤ (b.length : ℚ) := by
        exact_mod_cast hL2
      linarith

theorem lcsRatio_comm (a b : String) : lcsRatio a b = lcsRatio b a := by
  unfold lcsRatio
  rw [lcsDP_eq_lcsLen, lcsDP_eq_lcsLen, lcsLen_comm]
  by_cases ha : a.length = 0 <;> by_cases hb : b.length = 0 <;>
    simp [ha, hb, add_comm]

theorem string_eq_of_data {a b : String} (h : a.data = b.data) : a = b := by
  cases a
  cases b
  simp_all

theorem lcsRatio_eq_one_iff (a b : String) : lcsRatio a b = 1 ↔ a = b := by
  constructor
  · intro h
    by_cases ha : a.length = 0 <;> by_cases hb : b.length = 0
    · have ha' : a.data = [] := List.length_eq_zero.mp ha
      have hb' : b.data = [] := List.length_eq_zero.mp hb
      exact string_eq_of_data (ha'.trans hb'.symm)
    · exfalso
      unfold lcsRatio at h
      rw [if_neg (by simp [hb]), if_pos (Or.inl ha)] at h
      norm_num at h
    · exfalso
      unfold lcsRatio at h
      rw [if_neg (by simp [ha]), if_pos (Or.inr hb)] at h
      norm_num at h
    · rw [lcsRatio_eq_of_ne a b ha hb] at h
      have ha' : 0 < (a.length : ℚ) := by
        exact_mod_cast Nat.pos_of_ne_zero ha
      have hb' : 0 < (b.length : ℚ) := by
        exact_mod_cast Nat.pos_of_ne_zero hb
      rw [div_eq_one_iff_eq (by linarith)] at h
      have hnat : 2 * lcsLen a.data b.data = a.length + b.length := by
        exact_mod_cast h
      have hL1 : lcsLen a.data b.data ≤ a.length := lcsLen_le_left a.data b.data
      have hL2 : lcsLen a.data b.data ≤ b.length := lcsLen_le_right a.data b.data
      have hLa : lcsLen a.data b.data = a.data.length := by
        rw [← string_length_data]
        omega
      have hLb : lcsLen a.data b.data = b.data.length := by
        rw [← string_length_data]
        omega
      obtain ⟨l, hla, hlb, hlen⟩ := exists_lcsLen a.data b.data
      have hea : l = a.data := hla.eq_of_length (by omega)
      have heb : l = b.data := hlb.eq_of_length (by omega)
      exact string_eq_of_data (hea ▸ heb)
  · intro h
    subst h
    by_cases ha : a.length = 0
    · unfold lcsRatio
      rw [if_pos ⟨ha, ha⟩]
    · rw [lcsRatio_eq_of_ne a a ha ha, lcsLen_self, ← string_length_data]
      have ha' : 0 < (a.length : ℚ) := by
        exact_mod_cast Nat.pos_of_ne_zero ha
      rw [div_eq_one_iff_eq (by linarith)]
      ring

/-- Folding the loop body of `deduplicate` from a non-empty accumulator
`acc ++ [rep]` appends exactly `dedupeFrom rep t ls`. -/
theorem foldl_dedup (t : ℚ) :
    ∀ (ls acc : List String) (rep : String),
      ls.foldl
        (fun deduped line =>
          if lcsRatio line (deduped.getLastD "") < t then deduped ++ [line]
          else deduped)
        (acc ++ [rep])
      = acc ++ rep :: dedupeFrom rep t ls
  | [], acc, rep => by simp [dedupeFrom]
  | l :: ls, acc, rep => by
      simp only [List.foldl_cons, List.getLastD_concat]
      by_cases h : lcsRatio l rep < t
      · rw [if_pos h, foldl_dedup t ls (acc ++ [rep]) l]
        simp [dedupeFrom, h]
      · rw [if_neg h, foldl_dedup t ls acc rep]
        simp [dedupeFrom, h]

/-- `deduplicate` on a non-empty input is: emit the first line, then run the
representative-based policy on the rest. -/
theorem deduplicate_cons (x : String) (rest : List String) (t : ℚ) :
    deduplicate (x :: rest) t = x :: dedupeFrom x t rest := by
  have h := foldl_dedup t rest [] x
  simp only [List.nil_append] at h
  simp only [deduplicate]
  exact h

theorem deduplicate_nil (t : ℚ) : deduplicate [] t = [] := rfl

theorem dedupeFrom_sublist (t : ℚ) :
    ∀ (ls : List String) (rep : String), dedupeFrom rep t ls <+ ls
  | [], _ => by simp [dedupeFrom]
  | l :: ls, rep => by
      rw [dedupeFrom]
      by_cases h : lcsRatio l rep < t
      · rw [if_pos h]
        exact List.cons_sublist_cons.mpr (dedupeFrom_sublist t ls l)
      · rw [if_neg h]
        exact (dedupeFrom_sublist t ls rep).cons l

/-- Each emitted line has similarity below the threshold to the previously
emitted line. -/
theorem dedupeFrom_chain (t : ℚ) :
    ∀ (ls : List String) (rep : String),
      List.Chain' (fun p q => lcsRatio q p < t) (rep :: dedupeFrom rep t ls)
  | [], rep => by simp [dedupeFrom]
  | l :: ls, rep => by
      rw [dedupeFrom]
      by_cases h : lcsRatio l rep < t
      · rw [if_pos h]
        exact List.chain'_cons.mpr ⟨h, dedupeFrom_chain t ls l⟩
      · rw [if_neg h]
        exact dedupeFrom_chain t ls rep

/-- On a list whose adjacent similarities are already below the threshold,
the policy keeps everything. -/
theorem dedupeFrom_of_chain (t : ℚ) :
    ∀ (ls : List String) (rep : String),
      List.Chain' (fun p q => lcsRatio q p < t) (rep :: ls) →
      dedupeFrom rep t ls = ls
  | [], _, _ => by simp [dedupeFrom]
  | l :: ls, rep, hch => by
      rw [List.chain'_cons] at hch
      rw [dedupeFrom, if_pos hch.1, dedupeFrom_of_chain t ls l hch.2]

/-- Evaluation of `_lcs_ratio` at concrete non-empty strings. -/
theorem lcsRatio_concrete (a b : String) (L m n : ℕ)
    (hdp : lcsDP a.data b.data = L) (hm : a.length = m) (hn : b.length = n)
    (hm0 : m ≠ 0) (hn0 : n ≠ 0) :
    lcsRatio a b = 2 * (L : ℚ) / ((m : ℚ) + (n : ℚ)) := by
  unfold lcsRatio
  rw [hm, hn, hdp, if_neg (by simp [hm0]), if_neg (by simp [hm0, hn0])]

theorem lcsRatio_xb_ab : lcsRatio "xb" "ab" = 1 / 2 := by
  rw [lcsRatio_concrete "xb" "ab" 1 2 2 rfl rfl rfl (by norm_num)
    (by norm_num)]
  norm_num

theorem lcsRatio_xy_ab : lcsRatio "xy" "ab" = 0 := by
  rw [lcsRatio_concrete "xy" "ab" 0 2 2 rfl rfl rfl (by norm_num)
    (by norm_num)]
  norm_num

theorem lcsRatio_ab_xy : lcsRatio "ab" "xy" = 0 := by
  rw [lcsRatio_concrete "ab" "xy" 0 2 2 rfl rfl rfl (by norm_num)
    (by norm_num)]
  norm_num

theorem lcsRatio_ab_ab : lcsRatio "ab" "ab" = 1 :=
  (lcsRatio_eq_one_iff "ab" "ab").mpr rfl

theorem dedup_ab_xb : deduplicate ["ab", "xb"] (1 / 2) = ["ab"] := by
  rw [deduplicate_cons, dedupeFrom,
    if_neg (by rw [lcsRatio_xb_ab]; norm_num), dedupeFrom]

theorem dedup_ab_xy_ab :
    deduplicate ["ab", "xy", "ab"] (1 / 2) = ["ab", "xy", "ab"] := by
  rw [deduplicate_cons, dedupeFrom,
    if_pos (by rw [lcsRatio_xy_ab]; norm_num), dedupeFrom,
    if_pos (by rw [lcsRatio_ab_xy]; norm_num), dedupeFrom]

/-- For `r ≤ 1` the crop top is `h` minus the ceiling of `h * r`. -/
theorem cropTop_eq (h : ℕ) (r : ℚ) (h1 : r ≤ 1) :
    cropTop h r = (h : ℤ) - ⌈(h : ℚ) * r⌉ := by
  unfold cropTop pyInt
  have hnn : 0 ≤ (h : ℚ) * (1 - r) := by
    apply mul_nonneg (by positivity)
    linarith
  rw [if_pos hnn]
  have harg : (h : ℚ) * (1 - r) = ((h : ℤ) : ℚ) + -((h : ℚ) * r) := by
    push_cast
    ring
  rw [harg, Int.floor_int_add, Int.floor_neg]
  ring

/-- For `r ≤ 1` the crop height is the ceiling of `h * r`, not its rounding. -/
theorem cropHeight_eq (h : ℕ) (r : ℚ) (h1 : r ≤ 1) :
    cropHeight h r = ⌈(h : ℚ) * r⌉ := by
  unfold cropHeight
  rw [cropTop_eq h r h1]
  ring

theorem pyStrip_join_nil : pyStrip (String.intercalate " " []) = "" := rfl

/-- The loop of `ocr_frames` appends exactly the non-empty stripped
recognitions, in frame order. -/
theorem ocrFrames_foldl {α : Type} (engine : α → List String) :
    ∀ (frames : List α) (acc : List String),
      frames.foldl
        (fun all_lines f =>
          let frags := engine f
          if frags = [] then all_lines
          else
            let frame_text := String.intercalate " " frags
            if pyStrip frame_text = "" then all_lines
            else all_lines ++ [pyStrip frame_text])
        acc
      = acc ++ (frames.map
          fun f => pyStrip (String.intercalate " " (engine f))).filter
            (fun s => !(s == ""))
  | [], acc => by simp
  | f :: fs, acc => by
      simp only [List.foldl_cons, List.map_cons, List.filter_cons]
      by_cases hf : engine f = []
      · rw [if_pos hf]
        rw [ocrFrames_foldl engine fs acc]
        simp [hf, pyStrip_join_nil]
      · rw [if_neg hf]
        by_cases hs : pyStrip (String.intercalate " " (engine f)) = ""
        · rw [if_pos hs, ocrFrames_foldl engine fs acc]
          simp [hs]
        · rw [if_neg hs, ocrFrames_foldl engine fs
            (acc ++ [pyStrip (String.intercalate " " (engine f))])]
          simp [hs]

/-- C1: `deduplicate` emits the first input line, then processes the
remaining lines in order, comparing each line only against the most recently
emitted line (the current representative): a line is emitted — becoming the
new representative — exactly when its similarity to the representative is
strictly below the threshold, and is otherwise discarded leaving the
representative unchanged (the policy `dedupeFrom`). -/
theorem deduplicate_streaming_policy (t : ℚ) :
    deduplicate [] t = [] ∧
    (∀ (x : String) (rest : List String),
      deduplicate (x :: rest) t = x :: dedupeFrom x t rest) ∧
    (∀ (rep l : String) (ls : List String),
      dedupeFrom rep t (l :: ls)
        = if lcsRatio l rep < t then l :: dedupeFrom l t ls
          else dedupeFrom rep t ls) :=
  ⟨deduplicate_nil t, fun x rest => deduplicate_cons x rest t,
    fun _ _ _ => rfl⟩

/-- C2: `similarity(a, b)` is `1` when both strings are empty, `0` when
exactly one is empty, and otherwise `2 * L / (len a + len b)` where `L` is
the length of any longest common subsequence of `a` and `b`; the result
always lies in `[0, 1]`. -/
theorem similarity_lcs_formula (a b : String) :
    (a.data = [] → b.data = [] → lcsRatio a b = 1) ∧
    ((a.data = [] ∧ b.data ≠ []) ∨ (a.data ≠ [] ∧ b.data = []) →
      lcsRatio a b = 0) ∧
    (∀ l : List Char, IsLCS a.data b.data l → a.data ≠ [] → b.data ≠ [] →
      lcsRatio a b
        = 2 * (l.length : ℚ)
          / ((a.data.length : ℚ) + (b.data.length : ℚ))) ∧
    0 ≤ lcsRatio a b ∧ lcsRatio a b ≤ 1 := by
  have hlen0 : ∀ s : String, s.data = [] → s.length = 0 := by
    intro s hs
    rw [string_length_data, hs]
    rfl
  have hlen1 : ∀ s : String, s.data ≠ [] → s.length ≠ 0 := by
    intro s hs h
    rw [string_length_data] at h
    exact hs (List.length_eq_zero.mp h)
  refine ⟨?_, ?_, ?_, lcsRatio_nonneg a b, lcsRatio_le_one a b⟩
  · intro ha hb
    unfold lcsRatio
    rw [if_pos ⟨hlen0 a ha, hlen0 b hb⟩]
  · rintro (⟨ha, hb⟩ | ⟨ha, hb⟩)
    · unfold lcsRatio
      rw [if_neg (fun hand => hlen1 b hb hand.2),
        if_pos (Or.inl (hlen0 a ha))]
    · unfold lcsRatio
      rw [if_neg (fun hand => hlen1 a ha hand.1),
        if_pos (Or.inr (hlen0 b hb))]
  · intro l hl ha hb
    rw [lcsRatio_eq_of_ne a b (hlen1 a ha) (hlen1 b hb), isLCS_length hl,
      string_length_data, string_length_data]

/-- C2 witness: at `a = "ab"`, `b = "xb"` the list `['b']` is a longest
common subsequence and the similarity evaluates through the formula. -/
theorem similarity_lcs_formula_witness :
    IsLCS "ab".data "xb".data ['b'] ∧
    lcsRatio "ab" "xb"
      = 2 * ((['b'].length : ℕ) : ℚ)
        / (("ab".data.length : ℚ) + ("xb".data.length : ℚ)) := by
  have hlcs : IsLCS "ab".data "xb".data ['b'] := by
    refine ⟨by decide, by decide, ?_⟩
    intro l' h1 h2
    have hle := length_le_lcsLen "ab".data "xb".data l' h1 h2
    have hlen : lcsLen "ab".data "xb".data = 1 := by
      rw [← lcsDP_eq_lcsLen]
      rfl
    rw [hlen] at hle
    simpa using hle
  exact ⟨hlcs,
    (similarity_lcs_formula "ab" "xb").2.2.1 ['b'] hlcs (by decide) (by decide)⟩

/-- C3 counterexample: at threshold `1/2` the line `"xb"` has similarity
exactly `1/2` to the representative `"ab"`, yet `deduplicate` discards it —
the claim that a similarity equal to the threshold keeps the line is false. -/
theorem threshold_equal_discarded_cex :
    lcsRatio "xb" "ab" = 1 / 2 ∧ deduplicate ["ab", "xb"] (1 / 2) = ["ab"] :=
  ⟨lcsRatio_xb_ab, dedup_ab_xb⟩

/-- C3 (amended): a line whose similarity to the current representative
equals the threshold exactly is treated as a duplicate and discarded
(because the comparison is strict `<`), leaving the representative
unchanged. -/
theorem threshold_equal_discarded (rep l : String) (t : ℚ)
    (ls : List String) (h : lcsRatio l rep = t) :
    deduplicate (rep :: l :: ls) t = deduplicate (rep :: ls) t := by
  rw [deduplicate_cons, deduplicate_cons, dedupeFrom,
    if_neg (by rw [h]; exact lt_irrefl t)]

/-- C3 witness: the amended statement at the concrete boundary input. -/
theorem threshold_equal_discarded_witness :
    lcsRatio "xb" "ab" = 1 / 2 ∧
    deduplicate ["ab", "xb"] (1 / 2) = deduplicate ["ab"] (1 / 2) :=
  ⟨lcsRatio_xb_ab,
    threshold_equal_discarded "ab" "xb" (1 / 2) [] lcsRatio_xb_ab⟩

theorem cropTop_100 : cropTop 100 (1 / 5) = 80 := by
  rw [cropTop_eq 100 (1 / 5) (by norm_num),
    show ((100 : ℕ) : ℚ) * (1 / 5) = 20 by push_cast; norm_num]
  norm_num

theorem cropTop_one (h : ℕ) : cropTop h 1 = 0 := by
  unfold cropTop pyInt
  norm_num

/-- C4 counterexample: at `h = 10`, `r = 21/100` the crop height is the
ceiling `3`, while `round(h * r) = 2` — the claimed `round` formulas are
false of the code. -/
theorem crop_round_cex :
    cropHeight 10 (21 / 100) = 3 ∧ round ((10 : ℚ) * (21 / 100)) = 2 ∧
    ¬ cropHeight 10 (21 / 100) = round ((10 : ℚ) * (21 / 100)) := by
  have h1 : cropHeight 10 (21 / 100) = 3 := by
    rw [cropHeight_eq 10 (21 / 100) (by norm_num),
      show ((10 : ℕ) : ℚ) * (21 / 100) = 21 / 10 by push_cast; norm_num,
      Int.ceil_eq_iff] <;>
      norm_num
  have h2 : round ((10 : ℚ) * (21 / 100)) = 2 := by
    norm_num [round_eq]
  refine ⟨h1, h2, ?_⟩
  rw [h1, h2]
  norm_num

/-- C4 (amended): for every frame size and crop ratio `0 < r ≤ 1` the crop
keeps the full width and the bottom of the frame: the crop box is
`(0, h - ⌈h·r⌉, w, h)`, so the region height is `⌈h·r⌉` (a ceiling, not
`round(h·r)`) and its top is `h - ⌈h·r⌉`; in particular for `h = 100`,
`r = 1/5` the top is `80` (spanning to `100`), and for `r = 1` the entire
frame is used. -/
theorem crop_region_spec (w h : ℕ) (r : ℚ) (hr0 : 0 < r) (hr1 : r ≤ 1) :
    cropBox w h r = (0, (h : ℤ) - ⌈(h : ℚ) * r⌉, (w : ℤ), (h : ℤ)) ∧
    cropHeight h r = ⌈(h : ℚ) * r⌉ ∧
    cropTop 100 (1 / 5) = 80 ∧
    cropBox w h 1 = (0, 0, (w : ℤ), (h : ℤ)) := by
  refine ⟨?_, cropHeight_eq h r hr1, cropTop_100, ?_⟩
  · unfold cropBox
    rw [cropTop_eq h r hr1]
  · unfold cropBox
    rw [cropTop_one]

/-- C4 witness: the amended statement at `w = 50`, `h = 100`, `r = 1/5`. -/
theorem crop_region_spec_witness :
    (0 : ℚ) < 1 / 5 ∧ (1 : ℚ) / 5 ≤ 1 ∧
    cropHeight 100 (1 / 5) = ⌈(100 : ℚ) * (1 / 5)⌉ :=
  ⟨by norm_num, by norm_num,
    (crop_region_spec 50 100 (1 / 5) (by norm_num) (by norm_num)).2.1⟩

/-- C5: the output of `deduplicate` is a subsequence of the input preserving
relative order, its length is at most the input length, the first input line
is always the first output line when the input is non-empty, and empty input
yields empty output. -/
theorem deduplicate_subsequence (lines : List String) (t : ℚ) :
    deduplicate lines t <+ lines ∧
    (deduplicate lines t).length ≤ lines.length ∧
    (∀ (x : String) (rest : List String), lines = x :: rest →
      (deduplicate lines t).head? = some x) ∧
    deduplicate [] t = [] := by
  have hsub : deduplicate lines t <+ lines := by
    cases lines with
    | nil => exact List.Sublist.refl []
    | cons x rest =>
        rw [deduplicate_cons]
        exact List.cons_sublist_cons.mpr (dedupeFrom_sublist t rest x)
  refine ⟨hsub, hsub.length_le, ?_, rfl⟩
  rintro x rest rfl
  rw [deduplicate_cons]
  rfl

/-- C5 witness: the subsequence and first-line facts at a concrete input. -/
theorem deduplicate_subsequence_witness :
    deduplicate ["a", "b"] 0 <+ ["a", "b"] ∧
    (deduplicate ["a", "b"] 0).head? = some "a" :=
  ⟨(deduplicate_subsequence ["a", "b"] 0).1,
    (deduplicate_subsequence ["a", "b"] 0).2.2.1 "a" ["b"] rfl⟩

/-- C6: any two adjacent lines in the output of `deduplicate` have
similarity strictly below the threshold; non-adjacent output entries carry
no such guarantee, witnessed by `["ab", "xy", "ab"]` at threshold `1/2`,
whose first and third output lines have similarity `1 ≥ 1/2`. -/
theorem deduplicate_adjacent_dissimilar :
    (∀ (lines : List String) (t : ℚ),
      List.Chain' (fun p q => lcsRatio q p < t) (deduplicate lines t)) ∧
    deduplicate ["ab", "xy", "ab"] (1 / 2) = ["ab", "xy", "ab"] ∧
    ¬ lcsRatio "ab" "ab" < 1 / 2 := by
  refine ⟨?_, dedup_ab_xy_ab, ?_⟩
  · intro lines t
    cases lines with
    | nil => simp [deduplicate_nil]
    | cons x rest =>
        rw [deduplicate_cons]
        exact dedupeFrom_chain t rest x
  · rw [lcsRatio_ab_ab]
    norm_num

/-- C7: the similarity is symmetric, and equals `1` exactly when the two
strings are equal (in particular `similarity(a, a) = 1` for every string,
including the empty one). -/
theorem similarity_symm_eq_one_iff (a b : String) :
    lcsRatio a b = lcsRatio b a ∧ (lcsRatio a b = 1 ↔ a = b) :=
  ⟨lcsRatio_comm a b, lcsRatio_eq_one_iff a b⟩

/-- C8: the per-frame stage forwards to the deduplicator exactly the
recognitions whose stripped text is non-empty, in frame order; empty or
whitespace-only recognitions produce no text line. -/
theorem ocr_filters_blank_recognitions {α : Type} (engine : α → List String)
    (frames : List α) :
    ocrFrames engine frames
      = (frames.map
          fun f => pyStrip (String.intercalate " " (engine f))).filter
            (fun s => !(s == "")) := by
  unfold ocrFrames
  simpa using ocrFrames_foldl engine frames []

/-- C9: if frame sampling produces zero frames, the pipeline aborts with the
non-zero exit status `1` — for every OCR oracle, so before any OCR,
deduplication or persistence — and never completes as a successful run. -/
theorem zero_frames_fatal {α : Type} (engine : α → List String) :
    runPipeline ([] : List α) engine = Except.error 1 ∧
    (∀ out : String, runPipeline ([] : List α) engine ≠ Except.ok out) ∧
    (1 : ℕ) ≠ 0 := by
  refine ⟨rfl, ?_, by norm_num⟩
  intro out h
  simp [runPipeline] at h

/-- C10: deduplication is idempotent — re-running `deduplicate` on its own
output changes nothing, since every adjacent output pair is already below
the threshold. -/
theorem deduplicate_idempotent (lines : List String) (t : ℚ) :
    deduplicate (deduplicate lines t) t = deduplicate lines t := by
  cases lines with
  | nil => rfl
  | cons x rest =>
      rw [deduplicate_cons, deduplicate_cons,
        dedupeFrom_of_chain t (dedupeFrom x t rest) x
          (dedupeFrom_chain t rest x)]
